import Mathlib

/-!
# Underwater-Processing: bright-channel-prior dehazing and the CAF metric

A shallow embedding of `src/modules/dehazing/src/dehazing.cpp` and of `getCAF`
from `src/modules/evaluationmetrics/src/evaluationmetrics.cpp`.

Modelling conventions.

* An 8-bit plane (`cv::Mat` of `uchar`) is a function `row → column → Nat`; its
  height and width are passed next to it wherever the source reads them.
* The matrix arithmetic of `dehazing.cpp` is carried out in exact rationals. A
  division whose divisor is zero has no finite quotient; the model reports it
  as `Fault.divByZero` instead of inventing a number for it. Where the source
  stores a value in a `float` and then compares it (the channel means of
  `maxColDiff`), the narrowing is an explicit argument.
* The scalar arithmetic of `getCAF` is carried out on IEEE values (`Ieee.FVal`):
  every `double` operation rounds to 53 bits and the result is narrowed to
  `float`.
* A read past the end of a `std::vector` or of a matrix row is reported as
  `Fault.outOfRange`.
-/

namespace Ieee

/-- Nearest integer, halves to the even neighbour. -/
def roundHalfEven (q : ℚ) : ℤ :=
  let f := ⌊q⌋
  let d := q - f
  if d < 1 / 2 then f
  else if 1 / 2 < d then f + 1
  else if f % 2 = 0 then f else f + 1

/-- Round-to-nearest-even onto the binary format with `p` significand bits and
smallest exponent `emin`: the spacing is `2 ^ (e - (p - 1))` in the binade
`[2 ^ e, 2 ^ (e + 1))` of `|q|`, and that of the binade `emin` below it. The
exponent is not bounded above here. -/
def roundBinary (p : Nat) (emin : ℤ) (q : ℚ) : ℚ :=
  let e := max (Int.log 2 |q|) emin
  let ulp : ℚ := (2 : ℚ) ^ (e - ((p : ℤ) - 1))
  (roundHalfEven (q / ulp) : ℚ) * ulp

/-- The `float` nearest to a number (24 bits, exponents from -126); no overflow
arises below `2 ^ 128`. -/
def float32 (q : ℚ) : ℚ := roundBinary 24 (-126) q

end Ieee

namespace Dehazing

/-- Failures the C++ code can run into; the source itself never raises them. -/
inductive Fault where
  | outOfRange
  | divByZero
  deriving DecidableEq, Repr

/-- A single-channel 8-bit matrix, indexed by row and column. -/
abbrev Plane := Nat → Nat → Nat

/-- A single-channel floating-point matrix, indexed by row and column. -/
abbrev FPlane := Nat → Nat → ℚ

/-- Division of floating-point values: a zero divisor yields no finite quotient. -/
def fdiv (a b : ℚ) : Except Fault ℚ :=
  if b = 0 then .error .divByZero else .ok (a / b)

/-- Rounding to the nearest integer, halves to the even neighbour (`cvRound`). -/
def cvRound (q : ℚ) : ℤ :=
  let f := ⌊q⌋
  let d := q - f
  if d < 1 / 2 then f
  else if 1 / 2 < d then f + 1
  else if f % 2 = 0 then f else f + 1

/-- Conversion of a floating-point value to `uchar` (`saturate_cast<uchar>`):
round, then clamp to `[0, 255]`. -/
def saturate_uchar (q : ℚ) : Nat :=
  (max 0 (min 255 (cvRound q))).toNat

/-- Element `i` of a `std::vector<uchar>`; reading past the end is a fault. -/
def vecAt (A : List Nat) (i : Nat) : Except Fault Nat :=
  match A[i]? with
  | some a => .ok a
  | none => .error .outOfRange

/-! ## Bright channel (`brightChannel`) -/

/-- Indices of `[0, n)` covered by a `size`-wide structuring element anchored at
its centre `size / 2` (the anchor `Point(-1, -1)` chooses) and placed on `p`:
`i = p + d - size / 2` for an offset `d < size`. Positions outside the matrix
take no part in a dilation. -/
def window (size n p : Nat) : List Nat :=
  (List.range n).filter fun i => p ≤ i + size / 2 ∧ i + size / 2 < p + size

/-- Largest value of a list of 8-bit samples (`0` for no sample). -/
def maxOver (vals : List Nat) : Nat := vals.foldl max 0

/-- The call `dilate(src, dst, element)` with the `size × size` rectangle returned
by `getStructuringElement(MORPH_RECT, Size(size, size), Point(-1, -1))`, for
`size ≥ 1`: every output pixel is the maximum of the source over its window.
Only positions inside the matrix count; extending the border by edge
replication gives the same maximum, since a replicated sample is the sample of
a position that lies in the window. -/
def dilate (src : Plane) (rows cols size : Nat) : Plane := fun r c =>
  maxOver ((window size rows r).flatMap fun i => (window size cols c).map fun j => src i j)

/-- Bright channel image: per-pixel maximum of the three channels, then the
maximum filter of window `size`. -/
def brightChannel (channels : Fin 3 → Plane) (rows cols size : Nat) : Plane :=
  let maxRGB : Plane := fun r c => max (max (channels 0 r c) (channels 1 r c)) (channels 2 r c)
  dilate maxRGB rows cols size

/-! ## Maximum colour difference (`maxColDiff`) -/

/-- All pixel positions of a `rows × cols` matrix in row-major order. -/
def pixels (rows cols : Nat) : List (Nat × Nat) :=
  (List.range rows).flatMap fun r => (List.range cols).map fun c => (r, c)

/-- Global mean of a plane, `cv::mean(m)[0]`, in exact arithmetic. -/
def mean (m : Plane) (rows cols : Nat) : ℚ :=
  (((pixels rows cols).map fun p => m p.1 p.2).sum : ℚ) / ((rows * cols : Nat) : ℚ)

/-- Insertion of index `i` behind every index whose key is not larger. -/
def insertIdx {ι : Type} (key : ι → ℚ) (i : ι) : List ι → List ι
  | [] => [i]
  | j :: js => if key i < key j then i :: j :: js else j :: insertIdx key i js

/-- Indices ordered by ascending key, `cv::sortIdx(..., SORT_ASCENDING)`. Equal
keys keep their input order, which is what the `std::sort` behind `sortIdx`
does on the three-element row `maxColDiff` sorts. -/
def sortIdx {ι : Type} (key : ι → ℚ) (idx : List ι) : List ι :=
  idx.foldl (fun acc i => insertIdx key i acc) []

/-- Maximum colour difference image. `fl` is the narrowing of each channel mean
to the `float` stored in `means[3]`. The differences `cmax - cmin` and
`cmid - cmin` are `uchar` matrix subtractions, which saturate at `0`; that is
truncated subtraction on `Nat`. -/
def maxColDiff (fl : ℚ → ℚ) (channels : Fin 3 → Plane) (rows cols : Nat) : Plane :=
  let means : Fin 3 → ℚ := fun i => fl (mean (channels i) rows cols)
  let sorted := sortIdx means [0, 1, 2]
  let cmin := channels (sorted.getD 0 0)
  let cmid := channels (sorted.getD 1 0)
  let cmax := channels (sorted.getD 2 0)
  fun r c =>
    let a := max (cmax r c - cmin r c) 0
    let b := max (cmid r c - cmin r c) 0
    255 - max a b

/-! ## Rectification (`rectify`) -/

/-- Saturation-weighted blend of the bright channel and the colour difference
image: `lambda` is the largest saturation over 255, and `addWeighted` writes
`bc * lambda + mcd * (1 - lambda) + 0` back as 8-bit. -/
def rectify (S bc mcd : Plane) (rows cols : Nat) : Plane :=
  let lambda : ℚ := (maxOver ((pixels rows cols).map fun p => S p.1 p.2) : ℚ) / 255
  fun r c => saturate_uchar ((bc r c : ℚ) * lambda + (mcd r c : ℚ) * (1 - lambda) + 0)

/-! ## Atmospheric light (`lightEstimation`) -/

/-- The sample count `round(src_gray.total() * 0.01)`. `round` sends halves away
from zero, and for every pixel count an `int` can hold the double product is
on the same side of each half as the exact quotient, so the count is
`(total + 50) / 100`. -/
def percentage (total : Nat) : Nat := (total + 50) / 100

/-- Scan of `minMaxLoc` for the minimum: the position moves only when a value
is strictly smaller than the smallest one seen so far. -/
def minLocAux {α : Type} [LinearOrder α] : List α → α → Nat → Nat → Nat
  | [], _, best, _ => best
  | v :: vs, minVal, best, i =>
    if v < minVal then minLocAux vs v i (i + 1) else minLocAux vs minVal best (i + 1)

/-- Position of the minimum that `minMaxLoc` reports for a vector; for an empty
vector it reports `-1`, which is `none` here. -/
def minLoc {α : Type} [LinearOrder α] : List α → Option Nat
  | [] => none
  | v :: vs => some (minLocAux vs v 0 1)

/-- The loop of `lightEstimation` over `i = 0 .. percentage - 1`: it decodes the
flattened index `sorted[i]` into `(x, y)` and records `darkest[i]`, `X[i]` and
`Y[i]` (kept together as one triple per iteration). -/
def darkestLoop {α : Type} (variance : Nat → Nat → α) (sorted : List Nat) (cols : Nat) :
    List Nat → Except Fault (List (α × Nat × Nat))
  | [] => .ok []
  | i :: is =>
    match sorted[i]? with
    | none => .error .outOfRange
    | some k =>
      let x := k / cols
      let y := if x = 0 then k else k - x * cols
      match darkestLoop variance sorted cols is with
      | .error e => .error e
      | .ok rest => .ok ((variance x y, x, y) :: rest)

/-- Atmospheric light. `variance` is the map `sqrBoxFilter` returns for the
grayscale image and `sorted` the index row `sortIdx` returns for the flattened
bright channel; `total` and `cols` are `src_gray.total()` and `src_gray.cols`.
The values of `variance` are floats, of which only their order is used. -/
def lightEstimation {α : Type} [LinearOrder α] (variance : Nat → Nat → α) (sorted : List Nat)
    (total cols : Nat) (channels : Fin 3 → Plane) : Except Fault (List Nat) :=
  match darkestLoop variance sorted cols (List.range (percentage total)) with
  | .error e => .error e
  | .ok sel =>
    match minLoc (sel.map fun s => s.1) with
    | none => .error .outOfRange
    | some m =>
      match sel[m]? with
      | none => .error .outOfRange
      | some (_, x, y) => .ok [channels 0 x y, channels 1 x y, channels 2 x y]

/-! ## Transmittance (`transmittance`) -/

/-- One pass of the loop body, `255.0 * ((correct - A[i]) / (255.0 - A[i]))`, at
one pixel of value `x`. -/
def tChannel (x : ℚ) (a : Nat) : Except Fault ℚ :=
  match fdiv (x - a) (255 - a) with
  | .error e => .error e
  | .ok q => .ok (255 * q)

/-- Transmittance at pixel `(r, c)`: the three per-channel estimates are
accumulated, divided by 3 and converted to 8-bit. The arithmetic is exact here;
the `CV_32F` arithmetic of the source rounds every step, so that its 8-bit
result can be the neighbouring value when the exact mean lies next to a
rounding half. Which divisions are by zero does not depend on the rounding. -/
def transmittance (correct : Plane) (A : List Nat) (r c : Nat) : Except Fault Nat := do
  let x : ℚ := correct r c
  let t0 ← tChannel x (← vecAt A 0)
  let t1 ← tChannel x (← vecAt A 1)
  let t2 ← tChannel x (← vecAt A 2)
  let acc : ℚ := 0 + t0 + t1 + t2
  return saturate_uchar (acc / 3)

/-! ## Scene radiance (`dehaze`) -/

/-- The three channel assignments of `dehaze` at pixel `(r, c)`, before the
merged image is converted to 8-bit. `trans` is the 8-bit transmittance, scaled
by `1.0/255.0` first. -/
def dehazeChannels (channels : Fin 3 → FPlane) (A : List Nat) (trans : Plane) (r c : Nat) :
    Except Fault (ℚ × ℚ × ℚ) := do
  let t : ℚ := (trans r c : ℚ) * (1 / 255)
  let a0 ← vecAt A 0
  let q0 ← fdiv (channels 0 r c - (a0 : ℚ) * (1 - t)) t
  let a1 ← vecAt A 1
  let q1 ← fdiv (channels 1 r c - (a1 : ℚ) * (1 - t)) t
  let a2 ← vecAt A 2
  let q2 ← fdiv (channels 2 r c - (a2 : ℚ)) t
  return (255 - q0, 255 - q1, q2 + a2)

/-- Restored pixel `(r, c)`: the three channel values converted to 8-bit. -/
def dehaze (channels : Fin 3 → FPlane) (A : List Nat) (trans : Plane) (r c : Nat) :
    Except Fault (Nat × Nat × Nat) :=
  match dehazeChannels channels A trans r c with
  | .error e => .error e
  | .ok (v0, v1, v2) => .ok (saturate_uchar v0, saturate_uchar v1, saturate_uchar v2)

/-- What iteration `i` of the loop of `lightEstimation` records when `sorted`
has an entry `i`: the variance at the decoded position, the row and the column. -/
def recorded {α : Type} (variance : Nat → Nat → α) (sorted : List Nat) (cols i : Nat) :
    α × Nat × Nat :=
  (variance (sorted.getD i 0 / cols) (sorted.getD i 0 % cols),
    sorted.getD i 0 / cols, sorted.getD i 0 % cols)

/-! ## Definitions that follow the specification -/

/-- Forward haze model of the specification at one sample: a scene value `J`
seen through the 8-bit transmittance `t8` under atmospheric light `A`,
`I = J * t + A * (1 - t)` with `t = t8 / 255`. -/
def hazeModel (J : ℚ) (A t8 : Nat) : ℚ :=
  J * ((t8 : ℚ) / 255) + (A : ℚ) * (1 - (t8 : ℚ) / 255)

/-- Ranking of the specification: `i`, `j`, `k` are the three channel indices
in ascending order of `key` (the channel means), channels of equal key in
ascending order of their index. They stand for `C_min`, `C_mid`, `C_max`. -/
def RankedAscending (key : Fin 3 → ℚ) (i j k : Fin 3) : Prop :=
  i ≠ j ∧ j ≠ k ∧ i ≠ k ∧
    (key i < key j ∨ (key i = key j ∧ i < j)) ∧ (key j < key k ∨ (key j = key k ∧ j < k))

instance (key : Fin 3 → ℚ) (i j k : Fin 3) : Decidable (RankedAscending key i j k) := by
  unfold RankedAscending
  infer_instance

/-! ## Test images -/

/-- A 1 × 2 image whose first two channels have the same mean: channel 0 is
`(0, 10)`, channel 1 is `(10, 0)` and channel 2 is `(20, 20)`. -/
def tiedChannels : Fin 3 → Plane :=
  ![fun _ c => if c = 0 then 0 else 10, fun _ c => if c = 0 then 10 else 0, fun _ _ => 20]

/-- A 1 × 2 image whose two largest channel means are equal: channel 0 is
`(5, 5)`, channel 1 is `(10, 30)` and channel 2 is `(30, 10)`. -/
def tiedTopChannels : Fin 3 → Plane :=
  ![fun _ _ => 5, fun _ c => if c = 0 then 10 else 30, fun _ c => if c = 0 then 30 else 10]

/-- A 350 × 400 image: channel 0 is 200 except for the value 201 at pixel
`(0, 0)`, channel 1 is 200 and channel 2 is 255 everywhere. The means of
channels 0 and 1 differ by `1/140000`, less than half the spacing of the
`float`s next to 200. -/
def floatTieChannels : Fin 3 → Plane :=
  ![fun r c => if r = 0 ∧ c = 0 then 201 else 200, fun _ _ => 200, fun _ _ => 255]

end Dehazing

namespace EvaluationMetrics

end EvaluationMetrics

namespace Ieee

/-! ## Evaluation of the rounding -/

theorem roundHalfEven_of_close (q : ℚ) (z : ℤ) (h1 : (z : ℚ) - 1 / 2 < q)
    (h2 : q < z + 1 / 2) : roundHalfEven q = z := by
  unfold roundHalfEven
  rcases le_or_lt (z : ℚ) q with hz | hz
  · have hf : ⌊q⌋ = z := by
      rw [Int.floor_eq_iff]
      constructor <;> linarith
    simp only [hf]
    rw [if_pos (by linarith)]
  · have hf : ⌊q⌋ = z - 1 := by
      rw [Int.floor_eq_iff]
      push_cast
      constructor <;> linarith
    simp only [hf]
    push_cast
    rw [if_neg (by linarith), if_pos (by linarith)]
    ring

theorem roundBinary_of_binade (p : Nat) (emin e : ℤ) (q : ℚ) (z : ℤ) (hq : 0 < q)
    (hlo : (2 : ℚ) ^ e ≤ q) (hhi : q < (2 : ℚ) ^ (e + 1)) (hmin : emin ≤ e)
    (hz : roundHalfEven (q / (2 : ℚ) ^ (e - ((p : ℤ) - 1))) = z) :
    roundBinary p emin q = (z : ℚ) * (2 : ℚ) ^ (e - ((p : ℤ) - 1)) := by
  have hlog : Int.log 2 |q| = e := by
    rw [abs_of_pos hq]
    apply le_antisymm
    · have := (@Int.lt_zpow_iff_log_lt ℚ _ _ 2 (by norm_num) (e + 1) q hq).mp
        (by exact_mod_cast hhi)
      omega
    · exact (@Int.zpow_le_iff_le_log ℚ _ _ 2 (by norm_num) e q hq).mp (by exact_mod_cast hlo)
  unfold roundBinary
  simp only [hlog, max_eq_left hmin, hz]

theorem float32_mean_tie : float32 (28000001 / 140000) = 200 := by
  unfold float32
  rw [roundBinary_of_binade 24 (-126) 7 _ 13107200 (by norm_num) (by norm_num) (by norm_num)
    (by norm_num)]
  · norm_num
  · apply roundHalfEven_of_close <;> norm_num

theorem float32_200 : float32 200 = 200 := by
  unfold float32
  rw [roundBinary_of_binade 24 (-126) 7 _ 13107200 (by norm_num) (by norm_num) (by norm_num)
    (by norm_num)]
  · norm_num
  · apply roundHalfEven_of_close <;> norm_num

theorem float32_255 : float32 255 = 255 := by
  unfold float32
  rw [roundBinary_of_binade 24 (-126) 7 _ 16711680 (by norm_num) (by norm_num) (by norm_num)
    (by norm_num)]
  · norm_num
  · apply roundHalfEven_of_close <;> norm_num

end Ieee

namespace Dehazing

/-! ## Properties of the bright channel -/

theorem foldl_max_le (l : List Nat) (init b : Nat) (hinit : init ≤ b) (h : ∀ x ∈ l, x ≤ b) :
    l.foldl max init ≤ b := by
  induction l generalizing init with
  | nil => simpa using hinit
  | cons a t ih =>
    simp only [List.foldl_cons]
    exact ih _ (max_le hinit (h a (List.mem_cons_self a t)))
      (fun x hx => h x (List.mem_cons_of_mem a hx))

theorem init_le_foldl_max (l : List Nat) (init : Nat) : init ≤ l.foldl max init := by
  induction l generalizing init with
  | nil => simp
  | cons a t ih =>
    simp only [List.foldl_cons]
    exact le_trans (le_max_left init a) (ih _)

theorem le_foldl_max (l : List Nat) (init x : Nat) (hx : x ∈ l) : x ≤ l.foldl max init := by
  induction l generalizing init with
  | nil => simp at hx
  | cons a t ih =>
    simp only [List.foldl_cons]
    rcases List.mem_cons.mp hx with rfl | hmem
    · exact le_trans (le_max_right init x) (init_le_foldl_max t _)
    · exact ih _ hmem

theorem maxOver_mono (l₁ l₂ : List Nat) (h : ∀ x ∈ l₁, x ∈ l₂) : maxOver l₁ ≤ maxOver l₂ :=
  foldl_max_le l₁ 0 _ (Nat.zero_le _) (fun x hx => le_foldl_max l₂ 0 x (h x hx))

theorem mem_window (size n p i : Nat) :
    i ∈ window size n p ↔ i < n ∧ p ≤ i + size / 2 ∧ i + size / 2 < p + size := by
  simp [window]

theorem window_subset (s₁ s₂ n p i : Nat) (h : s₁ ≤ s₂) (hi : i ∈ window s₁ n p) :
    i ∈ window s₂ n p := by
  rw [mem_window] at hi ⊢
  omega

theorem dilate_mono_size (src : Plane) (rows cols s₁ s₂ r c : Nat) (h : s₁ ≤ s₂) :
    dilate src rows cols s₁ r c ≤ dilate src rows cols s₂ r c := by
  unfold dilate
  apply maxOver_mono
  intro x hx
  simp only [List.mem_flatMap, List.mem_map] at hx ⊢
  obtain ⟨i, hi, j, hj, rfl⟩ := hx
  exact ⟨i, window_subset s₁ s₂ rows r i h hi, j, window_subset s₁ s₂ cols c j h hj, rfl⟩

/-- C7: for window sizes `1 ≤ s1 ≤ s2`, every pixel of `brightChannel channels s1`
is at most the pixel at the same position of `brightChannel channels s2`. -/
theorem brightChannel_mono_size (channels : Fin 3 → Plane) (rows cols s1 s2 r c : Nat)
    (_hs1 : 1 ≤ s1) (hs : s1 ≤ s2) (_hr : r < rows) (_hc : c < cols) :
    brightChannel channels rows cols s1 r c ≤ brightChannel channels rows cols s2 r c := by
  unfold brightChannel
  exact dilate_mono_size _ rows cols s1 s2 r c hs

/-- C7 at a concrete input: a 3 × 3 image with one bright pixel, window sizes 1 and 3. -/
theorem brightChannel_mono_size_witness :
    (1 ≤ 1 ∧ 1 ≤ 3 ∧ 1 < 3) ∧
    brightChannel (fun _ r c => if r = 0 ∧ c = 0 then 200 else 10) 3 3 1 1 1
      ≤ brightChannel (fun _ r c => if r = 0 ∧ c = 0 then 200 else 10) 3 3 3 1 1 :=
  ⟨by decide,
    brightChannel_mono_size (fun _ r c => if r = 0 ∧ c = 0 then 200 else 10) 3 3 1 3 1 1
      (by decide) (by decide) (by decide) (by decide)⟩

/-! ## Properties of the 8-bit conversion -/

theorem cvRound_natCast (n : Nat) : cvRound (n : ℚ) = n := by
  have h : ⌊(n : ℚ)⌋ = (n : ℤ) := Int.floor_natCast n
  simp [cvRound, h]

theorem saturate_uchar_natCast (n : Nat) (h : n ≤ 255) : saturate_uchar (n : ℚ) = n := by
  unfold saturate_uchar
  rw [cvRound_natCast]
  omega

theorem saturate_uchar_le (q : ℚ) : saturate_uchar q ≤ 255 := by
  unfold saturate_uchar
  omega

/-! ## Properties of `transmittance` -/

theorem tChannel_ok (x : ℚ) (a : Nat) (h : a < 255) :
    tChannel x a = .ok (255 * ((x - a) / (255 - a))) := by
  have hne : (255 : ℚ) - a ≠ 0 := by
    have : (a : ℚ) < 255 := by exact_mod_cast h
    linarith
  simp [tChannel, fdiv, hne]

theorem tChannel_255 (x : ℚ) : tChannel x 255 = .error .divByZero := by
  simp [tChannel, fdiv]

theorem transmittance_ok (correct : Plane) (A0 A1 A2 r c : Nat)
    (h0 : A0 < 255) (h1 : A1 < 255) (h2 : A2 < 255) :
    transmittance correct [A0, A1, A2] r c
      = .ok (saturate_uchar
          ((0 + 255 * (((correct r c : ℚ) - A0) / (255 - A0))
              + 255 * (((correct r c : ℚ) - A1) / (255 - A1))
              + 255 * (((correct r c : ℚ) - A2) / (255 - A2))) / 3)) := by
  simp [transmittance, vecAt, tChannel_ok, h0, h1, h2, bind, Except.bind, pure, Except.pure]

/-- C5 (amended): when every component of the atmospheric light is below 255,
each divisor `255 - A_i` is non-zero, so `transmittance` divides by no zero and
every pixel gets a finite value, converted to 8-bit in `[0, 255]`. The code has
neither a rejection nor a clamp of `A_i`. -/
theorem transmittance_defined_below_255 (correct : Plane) (A0 A1 A2 r c : Nat)
    (h0 : A0 < 255) (h1 : A1 < 255) (h2 : A2 < 255) :
    ((255 : ℚ) - A0 ≠ 0 ∧ (255 : ℚ) - A1 ≠ 0 ∧ (255 : ℚ) - A2 ≠ 0) ∧
    ∃ v : Nat, v ≤ 255 ∧ transmittance correct [A0, A1, A2] r c = .ok v := by
  have hq : ∀ a : Nat, a < 255 → (255 : ℚ) - a ≠ 0 := by
    intro a ha
    have : (a : ℚ) < 255 := by exact_mod_cast ha
    linarith
  exact ⟨⟨hq A0 h0, hq A1 h1, hq A2 h2⟩, _, saturate_uchar_le _,
    transmittance_ok correct A0 A1 A2 r c h0 h1 h2⟩

/-- C5 (amended) at a concrete input: light `(25, 0, 3)` on a map of value 100. -/
theorem transmittance_defined_below_255_witness :
    (25 < 255 ∧ 0 < 255 ∧ 3 < 255) ∧
    ∃ v : Nat, v ≤ 255 ∧ transmittance (fun _ _ => 100) [25, 0, 3] 0 0 = .ok v :=
  ⟨⟨by decide, by decide, by decide⟩,
    (transmittance_defined_below_255 (fun _ _ => 100) 25 0 3 0 0
      (by decide) (by decide) (by decide)).2⟩

/-- C5 (counterexample): with `A = (255, 0, 0)` the first divisor `255 - A_0` is
zero and `transmittance` divides by it; nothing rejects or clamps the light. -/
theorem transmittance_divides_by_zero :
    ((255 : ℚ) - (255 : Nat) = 0) ∧
    transmittance (fun _ _ => 100) [255, 0, 0] 0 0 = .error .divByZero := by
  constructor
  · norm_num
  · simp [transmittance, vecAt, tChannel_255, bind, Except.bind]

/-! ## Properties of `dehaze` -/

theorem dehazeChannels_ok (channels : Fin 3 → FPlane) (A0 A1 A2 : Nat) (trans : Plane)
    (r c : Nat) (ht : 1 ≤ trans r c) :
    dehazeChannels channels [A0, A1, A2] trans r c
      = .ok (255 - (channels 0 r c - (A0 : ℚ) * (1 - (trans r c : ℚ) * (1 / 255)))
                    / ((trans r c : ℚ) * (1 / 255)),
             255 - (channels 1 r c - (A1 : ℚ) * (1 - (trans r c : ℚ) * (1 / 255)))
                    / ((trans r c : ℚ) * (1 / 255)),
             (channels 2 r c - (A2 : ℚ)) / ((trans r c : ℚ) * (1 / 255)) + A2) := by
  have hpos : (0 : ℚ) < (trans r c : ℚ) := by exact_mod_cast ht
  have hne : (trans r c : ℚ) ≠ 0 := ne_of_gt hpos
  simp [dehazeChannels, vecAt, fdiv, hne, bind, Except.bind, pure, Except.pure]

/-- C6 (amended): wherever the 8-bit transmittance is at least 1, the normalised
transmittance `t8 / 255` is positive, so each of the three divisions of `dehaze`
is by a non-zero number and the pixel gets finite channel values, converted to
8-bit. The code applies no floor to the transmittance. -/
theorem dehaze_defined_of_pos (channels : Fin 3 → FPlane) (A0 A1 A2 : Nat) (trans : Plane)
    (r c : Nat) (ht : 1 ≤ trans r c) :
    (0 : ℚ) < (trans r c : ℚ) * (1 / 255) ∧
    ∃ v : ℚ × ℚ × ℚ,
      dehazeChannels channels [A0, A1, A2] trans r c = .ok v ∧
      dehaze channels [A0, A1, A2] trans r c
        = .ok (saturate_uchar v.1, saturate_uchar v.2.1, saturate_uchar v.2.2) := by
  have hpos : (0 : ℚ) < (trans r c : ℚ) := by exact_mod_cast ht
  refine ⟨by positivity, _, dehazeChannels_ok channels A0 A1 A2 trans r c ht, ?_⟩
  simp [dehaze, dehazeChannels_ok channels A0 A1 A2 trans r c ht]

/-- C6 (amended) at a concrete input: transmittance 51 (`t = 1/5`), light 10. -/
theorem dehaze_defined_of_pos_witness :
    1 ≤ 51 ∧ ∃ v : ℚ × ℚ × ℚ,
      dehazeChannels (fun _ _ _ => 40) [10, 10, 10] (fun _ _ => 51) 0 0 = .ok v := by
  obtain ⟨_, v, hv, _⟩ :=
    dehaze_defined_of_pos (fun _ _ _ => 40) 10 10 10 (fun _ _ => 51) 0 0 (by decide)
  exact ⟨by decide, v, hv⟩

/-- C6 (counterexample): on a transmittance map holding the value 0 the normalised
transmittance is 0 and `dehaze` divides by it; no floor is applied first. -/
theorem dehaze_divides_by_zero :
    (((0 : Nat) : ℚ) * (1 / 255) = 0) ∧
    dehaze (fun _ _ _ => 40) [10, 10, 10] (fun _ _ => 0) 0 0 = .error .divByZero := by
  constructor
  · norm_num
  · simp [dehaze, dehazeChannels, vecAt, fdiv, bind, Except.bind]

/-- C3 (amended): on a hazy input built by the forward model from scene values
`J`, light `A` and an 8-bit transmittance in `1..255`, what `dehaze` computes
before the 8-bit conversion is `J 2` for channel 2 and the complement `255 - J c`
for channels 0 and 1. -/
theorem dehazeChannels_hazeModel (J : Fin 3 → ℚ) (A0 A1 A2 : Nat) (channels : Fin 3 → FPlane)
    (trans : Plane) (r c : Nat) (ht : 1 ≤ trans r c) (_ht255 : trans r c ≤ 255)
    (h0 : channels 0 r c = hazeModel (J 0) A0 (trans r c))
    (h1 : channels 1 r c = hazeModel (J 1) A1 (trans r c))
    (h2 : channels 2 r c = hazeModel (J 2) A2 (trans r c)) :
    dehazeChannels channels [A0, A1, A2] trans r c = .ok (255 - J 0, 255 - J 1, J 2) := by
  have hpos : (0 : ℚ) < (trans r c : ℚ) := by exact_mod_cast ht
  have hne : (trans r c : ℚ) ≠ 0 := ne_of_gt hpos
  have e01 : ∀ (j : ℚ) (a : Nat),
      (hazeModel j a (trans r c) - (a : ℚ) * (1 - (trans r c : ℚ) * (1 / 255)))
        / ((trans r c : ℚ) * (1 / 255)) = j := by
    intro j a
    unfold hazeModel
    field_simp
  have e2 : ∀ (j : ℚ) (a : Nat),
      (hazeModel j a (trans r c) - (a : ℚ)) / ((trans r c : ℚ) * (1 / 255)) + a = j := by
    intro j a
    unfold hazeModel
    field_simp
    ring
  rw [dehazeChannels_ok channels A0 A1 A2 trans r c ht, h0, h1, h2, e01, e01, e2]

/-- C3 (amended) at a concrete input: scene `(30, 60, 90)`, light `(10, 20, 40)`,
transmittance 51. -/
theorem dehazeChannels_hazeModel_witness :
    (1 ≤ 51 ∧ 51 ≤ 255) ∧
    dehazeChannels (fun i _ _ => hazeModel (![30, 60, 90] i) (![10, 20, 40] i) 51)
        [10, 20, 40] (fun _ _ => 51) 0 0
      = .ok (255 - (![30, 60, 90] : Fin 3 → ℚ) 0, 255 - (![30, 60, 90] : Fin 3 → ℚ) 1,
          (![30, 60, 90] : Fin 3 → ℚ) 2) :=
  ⟨⟨by decide, by decide⟩,
    dehazeChannels_hazeModel ![30, 60, 90] 10 20 40
      (fun i _ _ => hazeModel (![30, 60, 90] i) (![10, 20, 40] i) 51) (fun _ _ => 51) 0 0
      (by decide) (by decide) rfl rfl rfl⟩

/-- C3 (counterexample): for the scene `J = (0, 0, 0)` with light `(0, 0, 0)` and
transmittance 255 the hazy input is 0 everywhere, yet `dehaze` computes
`(255, 255, 0)` before the 8-bit conversion: channels 0 and 1 are not `J`. -/
theorem dehazeChannels_not_left_inverse :
    dehazeChannels (fun _ _ _ => hazeModel 0 0 255) [0, 0, 0] (fun _ _ => 255) 0 0
        = .ok (255, 255, 0) ∧
    dehazeChannels (fun _ _ _ => hazeModel 0 0 255) [0, 0, 0] (fun _ _ => 255) 0 0
        ≠ .ok (0, 0, 0) := by
  have h : dehazeChannels (fun _ _ _ => hazeModel 0 0 255) [0, 0, 0] (fun _ _ => 255) 0 0
      = .ok (255, 255, 0) := by
    rw [dehazeChannels_ok _ 0 0 0 _ 0 0 (by decide)]
    norm_num [hazeModel]
  refine ⟨h, ?_⟩
  rw [h]
  intro hcontra
  injection hcontra with hcontra
  have := congrArg Prod.fst hcontra
  norm_num at this

/-! ## The pipeline on a uniform image -/

theorem maxOver_eq_zero (l : List Nat) (h : ∀ x ∈ l, x = 0) : maxOver l = 0 :=
  Nat.le_zero.mp (foldl_max_le l 0 0 (le_refl 0) (fun x hx => le_of_eq (h x hx)))

theorem mem_pixels (rows cols : Nat) (p : Nat × Nat) :
    p ∈ pixels rows cols ↔ p.1 < rows ∧ p.2 < cols := by
  rcases p with ⟨a, b⟩
  simp only [pixels, List.mem_flatMap, List.mem_map, List.mem_range, Prod.mk.injEq]
  constructor
  · rintro ⟨x, hx, y, hy, rfl, rfl⟩
    exact ⟨hx, hy⟩
  · rintro ⟨ha, hb⟩
    exact ⟨a, ha, b, hb, rfl, rfl⟩

theorem maxColDiff_uniform (fl : ℚ → ℚ) (channels : Fin 3 → Plane) (rows cols I r c : Nat)
    (hch : ∀ i, channels i r c = I) : maxColDiff fl channels rows cols r c = 255 := by
  simp [maxColDiff, hch]

theorem rectify_zero_saturation (S bc mcd : Plane) (rows cols r c : Nat)
    (hS : ∀ r c, r < rows → c < cols → S r c = 0) (hmcd : mcd r c ≤ 255) :
    rectify S bc mcd rows cols r c = mcd r c := by
  have hmax : maxOver ((pixels rows cols).map fun p => S p.1 p.2) = 0 := by
    apply maxOver_eq_zero
    intro x hx
    obtain ⟨p, hp, rfl⟩ := List.mem_map.mp hx
    exact hS p.1 p.2 ((mem_pixels rows cols p).mp hp).1 ((mem_pixels rows cols p).mp hp).2
  simp only [rectify, hmax]
  have e : (bc r c : ℚ) * (((0 : Nat) : ℚ) / 255) + (mcd r c : ℚ) * (1 - ((0 : Nat) : ℚ) / 255) + 0
      = ((mcd r c : Nat) : ℚ) := by
    simp
  rw [e]
  exact saturate_uchar_natCast _ hmcd

/-- C4 (amended): for a uniform image whose three channels equal one constant
`I < 255` at every pixel, with an all-zero saturation plane, the light read at
any pixel is `(I, I, I)` and the transmittance of the rectified map under that
light is 255 at every pixel. -/
theorem transmittance_uniform (fl : ℚ → ℚ) (channels : Fin 3 → Plane) (S : Plane)
    (rows cols size I : Nat) (hI : I < 255)
    (hch : ∀ i r c, r < rows → c < cols → channels i r c = I)
    (hS : ∀ r c, r < rows → c < cols → S r c = 0)
    (r c : Nat) (hr : r < rows) (hc : c < cols) :
    [channels 0 r c, channels 1 r c, channels 2 r c] = [I, I, I] ∧
    transmittance
        (rectify S (brightChannel channels rows cols size) (maxColDiff fl channels rows cols)
          rows cols)
        [I, I, I] r c = .ok 255 := by
  have hmcd : maxColDiff fl channels rows cols r c = 255 :=
    maxColDiff_uniform fl channels rows cols I r c (fun i => hch i r c hr hc)
  have hrect : rectify S (brightChannel channels rows cols size)
      (maxColDiff fl channels rows cols) rows cols r c = 255 := by
    rw [rectify_zero_saturation S _ _ rows cols r c hS (by rw [hmcd]), hmcd]
  refine ⟨by simp [hch _ r c hr hc], ?_⟩
  rw [transmittance_ok _ I I I r c hI hI hI, hrect]
  have hne : (255 : ℚ) - I ≠ 0 := by
    have : (I : ℚ) < 255 := by exact_mod_cast hI
    linarith
  have e : (0 + 255 * ((((255 : Nat) : ℚ) - I) / (255 - I))
      + 255 * ((((255 : Nat) : ℚ) - I) / (255 - I))
      + 255 * ((((255 : Nat) : ℚ) - I) / (255 - I))) / 3 = ((255 : Nat) : ℚ) := by
    push_cast
    rw [div_self hne]
    norm_num
  rw [e, saturate_uchar_natCast 255 (le_refl _)]

/-- C4 (amended) at a concrete input: a 2 × 2 image of constant intensity 100. -/
theorem transmittance_uniform_witness :
    100 < 255 ∧
    transmittance
        (rectify (fun _ _ => 0) (brightChannel (fun _ _ _ => 100) 2 2 3)
          (maxColDiff id (fun _ _ _ => 100) 2 2) 2 2)
        [100, 100, 100] 1 1 = .ok 255 :=
  ⟨by decide,
    (transmittance_uniform id (fun _ _ _ => 100) (fun _ _ => 0) 2 2 3 100 (by decide)
      (fun _ _ _ _ _ => rfl) (fun _ _ _ _ => rfl) 1 1 (by decide) (by decide)).2⟩

/-- C4 (counterexample): for the uniform 10 × 10 image of intensity 255 the light
is `(255, 255, 255)`, every divisor `255 - A_i` is zero, and the transmittance is
not 255. -/
theorem transmittance_uniform_255 :
    transmittance
        (rectify (fun _ _ => 0) (brightChannel (fun _ _ _ => 255) 10 10 3)
          (maxColDiff id (fun _ _ _ => 255) 10 10) 10 10)
        [255, 255, 255] 0 0 = .error .divByZero ∧
    transmittance
        (rectify (fun _ _ => 0) (brightChannel (fun _ _ _ => 255) 10 10 3)
          (maxColDiff id (fun _ _ _ => 255) 10 10) 10 10)
        [255, 255, 255] 0 0 ≠ .ok 255 := by
  have h : transmittance
        (rectify (fun _ _ => 0) (brightChannel (fun _ _ _ => 255) 10 10 3)
          (maxColDiff id (fun _ _ _ => 255) 10 10) 10 10)
        [255, 255, 255] 0 0 = .error .divByZero := by
    simp only [transmittance, vecAt, tChannel_255, bind, Except.bind, List.getElem?_cons_zero,
      List.getElem?_cons_succ]
  refine ⟨h, ?_⟩
  rw [h]
  intro hcontra
  cases hcontra

/-! ## Properties of `maxColDiff` -/

theorem sortIdx_of_ranked (key : Fin 3 → ℚ) (i j k : Fin 3) (h : RankedAscending key i j k) :
    sortIdx key [0, 1, 2] = [i, j, k] := by
  obtain ⟨hij, hjk, hik, h1, h2⟩ := h
  by_cases a : key 1 < key 0 <;> by_cases b : key 2 < key 0 <;> by_cases c : key 2 < key 1 <;>
    fin_cases i <;> fin_cases j <;> fin_cases k <;>
    simp [sortIdx, insertIdx, a, b, c] at hij hjk hik h1 h2 ⊢ <;>
    (rcases h1 with h1 | h1 <;> rcases h2 with h2 | h2 <;> linarith)

theorem exists_ranked (key : Fin 3 → ℚ) : ∃ i j k, RankedAscending key i j k := by
  have tie : ∀ (x y : Fin 3), x < y → ¬ key y < key x →
      key x < key y ∨ (key x = key y ∧ x < y) := by
    intro x y hxy hle
    rcases lt_or_eq_of_le (not_lt.mp hle) with h | h
    · exact Or.inl h
    · exact Or.inr ⟨h, hxy⟩
  by_cases a : key 1 < key 0 <;> by_cases b : key 2 < key 0 <;> by_cases c : key 2 < key 1
  · exact ⟨2, 1, 0, by decide, by decide, by decide, Or.inl c, Or.inl a⟩
  · exact ⟨1, 2, 0, by decide, by decide, by decide, tie 1 2 (by decide) c, Or.inl b⟩
  · exact absurd (lt_trans c a) b
  · exact ⟨1, 0, 2, by decide, by decide, by decide, Or.inl a, tie 0 2 (by decide) b⟩
  · exact ⟨2, 0, 1, by decide, by decide, by decide, Or.inl b, tie 0 1 (by decide) a⟩
  · exact absurd (lt_of_lt_of_le b (not_lt.mp a)) (not_lt.mpr (not_lt.mp c))
  · exact ⟨0, 2, 1, by decide, by decide, by decide, tie 0 2 (by decide) b, Or.inl c⟩
  · exact ⟨0, 1, 2, by decide, by decide, by decide, tie 0 1 (by decide) a,
      tie 1 2 (by decide) c⟩

theorem maxColDiff_of_ranked (fl : ℚ → ℚ) (channels : Fin 3 → Plane) (rows cols : Nat)
    (i j k : Fin 3) (h : RankedAscending (fun n => fl (mean (channels n) rows cols)) i j k)
    (r c : Nat) :
    maxColDiff fl channels rows cols r c
      = 255 - max (max (channels k r c - channels i r c) 0)
                  (max (channels j r c - channels i r c) 0) := by
  simp only [maxColDiff]
  rw [sortIdx_of_ranked _ i j k h]
  rfl

theorem mean_tiedChannels :
    mean (tiedChannels 0) 1 2 = 5 ∧ mean (tiedChannels 1) 1 2 = 5 ∧
      mean (tiedChannels 2) 1 2 = 20 := by
  refine ⟨?_, ?_, ?_⟩ <;>
    norm_num [mean, pixels, tiedChannels, List.range_succ, List.flatMap]

theorem ranked_tiedChannels :
    RankedAscending (fun n => id (mean (tiedChannels n) 1 2)) 0 1 2 := by
  obtain ⟨h0, h1, h2⟩ := mean_tiedChannels
  refine ⟨by decide, by decide, by decide, Or.inr ⟨?_, by decide⟩, Or.inl ?_⟩
  · simp only [id, h0, h1]
  · simp only [id, h1, h2]
    norm_num

theorem sum_pixels (f : Nat × Nat → Nat) (rows cols : Nat) :
    ((pixels rows cols).map f).sum
      = ∑ r in Finset.range rows, ∑ c in Finset.range cols, f (r, c) := by
  have inner : ∀ (g : Nat → Nat) (n : Nat),
      ((List.range n).map g).sum = ∑ c in Finset.range n, g c := by
    intro g n
    induction n with
    | zero => simp
    | succ n ih => simp [List.range_succ, Finset.sum_range_succ, ih]
  induction rows with
  | zero => simp [pixels]
  | succ n ih =>
    have hn : pixels (n + 1) cols = pixels n cols ++ (List.range cols).map fun c => (n, c) := by
      simp [pixels, List.range_succ, List.flatMap_append]
    rw [hn, List.map_append, List.sum_append, ih, Finset.sum_range_succ, List.map_map, inner]
    rfl

theorem mean_const (v rows cols : Nat) (h : 0 < rows * cols) :
    mean (fun _ _ => v) rows cols = v := by
  unfold mean
  rw [sum_pixels]
  have hne : ((rows * cols : Nat) : ℚ) ≠ 0 := by exact_mod_cast (Nat.pos_iff_ne_zero.mp h)
  simp only [Finset.sum_const, Finset.card_range, smul_eq_mul]
  have e : ((rows * (cols * v) : Nat) : ℚ) = (v : ℚ) * ((rows * cols : Nat) : ℚ) := by
    push_cast
    ring
  rw [e, mul_div_assoc, div_self hne, mul_one]

theorem mean_bump (v rows cols : Nat) (hr : 0 < rows) (hc : 0 < cols) :
    mean (fun r c => if r = 0 ∧ c = 0 then v + 1 else v) rows cols
      = v + 1 / ((rows * cols : Nat) : ℚ) := by
  unfold mean
  rw [sum_pixels]
  have hne : ((rows * cols : Nat) : ℚ) ≠ 0 := by
    exact_mod_cast (Nat.pos_iff_ne_zero.mp (Nat.mul_pos hr hc))
  have hsum : (∑ r in Finset.range rows, ∑ c in Finset.range cols,
      (if r = 0 ∧ c = 0 then v + 1 else v))
      = rows * cols * v + 1 := by
    have e : ∀ r c : Nat, (if r = 0 ∧ c = 0 then v + 1 else v)
        = v + (if r = 0 then (if c = 0 then 1 else 0) else 0) := by
      intro r c
      by_cases h1 : r = 0 <;> by_cases h2 : c = 0 <;> simp [h1, h2]
    simp only [e, Finset.sum_add_distrib, Finset.sum_const, Finset.card_range, smul_eq_mul]
    have hi : (∑ r in Finset.range rows, ∑ c in Finset.range cols,
        (if r = 0 then (if c = 0 then 1 else 0) else 0)) = 1 := by
      rw [Finset.sum_eq_single 0]
      · simp [Finset.sum_ite_eq', hc]
      · intro b _ hb
        simp [hb]
      · intro h0
        exact absurd (Finset.mem_range.mpr hr) h0
    rw [hi]
    ring
  have e : ((rows * cols * v + 1 : Nat) : ℚ) = (v : ℚ) * ((rows * cols : Nat) : ℚ) + 1 := by
    push_cast
    ring
  rw [hsum, e, add_div, mul_div_assoc, div_self hne, mul_one]

theorem mean_floatTieChannels :
    mean (floatTieChannels 0) 350 400 = 28000001 / 140000 ∧
    mean (floatTieChannels 1) 350 400 = 200 ∧ mean (floatTieChannels 2) 350 400 = 255 := by
  refine ⟨?_, ?_, ?_⟩
  · have h := mean_bump 200 350 400 (by decide) (by decide)
    show mean (fun r c => if r = 0 ∧ c = 0 then 200 + 1 else 200) 350 400 = 28000001 / 140000
    rw [h]
    norm_num
  · have h := mean_const 200 350 400 (by decide)
    simp only [floatTieChannels, Matrix.cons_val_one, Matrix.head_cons]
    rw [h]
    norm_num
  · have h := mean_const 255 350 400 (by decide)
    simp only [floatTieChannels, Matrix.cons_val_two, Matrix.tail_cons, Matrix.head_cons]
    rw [h]
    norm_num

theorem ranked_floatTieChannels :
    RankedAscending (fun n => Ieee.float32 (mean (floatTieChannels n) 350 400)) 0 1 2 := by
  obtain ⟨h0, h1, h2⟩ := mean_floatTieChannels
  refine ⟨by decide, by decide, by decide, Or.inr ⟨?_, by decide⟩, Or.inl ?_⟩
  · simp only [h0, h1, Ieee.float32_mean_tie, Ieee.float32_200]
  · simp only [h1, h2, Ieee.float32_200, Ieee.float32_255]
    norm_num

theorem floatTieChannels_le (n : Fin 3) (r c : Nat) : floatTieChannels n r c ≤ 255 := by
  fin_cases n
  · simp only [floatTieChannels, Fin.zero_eta, Matrix.cons_val_zero]
    split_ifs <;> omega
  · simp [floatTieChannels]
  · simp [floatTieChannels]

/-- C9 (amended): with `(i, j, k)` the channels ranked ascending by their global
means as the code stores them (each mean narrowed to `float`, here by any
narrowing `fl`), equal stored means in ascending index order, every pixel of
`maxColDiff` equals `255 - max(max(C_k - C_i, 0), max(C_j - C_i, 0))` over the
integers and lies in `[0, 255]`; such a ranking always exists. -/
theorem maxColDiff_ranked_formula (fl : ℚ → ℚ) (channels : Fin 3 → Plane) (rows cols : Nat)
    (h8 : ∀ n r c, r < rows → c < cols → channels n r c ≤ 255)
    (r c : Nat) (hr : r < rows) (hc : c < cols) :
    (∃ i j k, RankedAscending (fun n => fl (mean (channels n) rows cols)) i j k) ∧
    ∀ i j k, RankedAscending (fun n => fl (mean (channels n) rows cols)) i j k →
      ((maxColDiff fl channels rows cols r c : Nat) : ℤ)
          = 255 - max (max ((channels k r c : ℤ) - channels i r c) 0)
                      (max ((channels j r c : ℤ) - channels i r c) 0) ∧
        (0 : ℤ) ≤ (maxColDiff fl channels rows cols r c : Nat) ∧
        maxColDiff fl channels rows cols r c ≤ 255 := by
  refine ⟨exists_ranked _, ?_⟩
  intro i j k hrank
  rw [maxColDiff_of_ranked fl channels rows cols i j k hrank r c]
  have hi := h8 i r c hr hc
  have hj := h8 j r c hr hc
  have hk := h8 k r c hr hc
  refine ⟨?_, ?_, ?_⟩ <;> omega

/-- C9 (amended) at a concrete input: the 350 × 400 image `floatTieChannels` under
the `float` narrowing. The stored means of channels 0 and 1 are both 200, so
the ranking is `(0, 1, 2)`, and pixel `(0, 0)`, of channel values
`(201, 200, 255)`, gets `255 - max(255 - 201, 0) = 201`. -/
theorem maxColDiff_ranked_formula_witness :
    RankedAscending (fun n => Ieee.float32 (mean (floatTieChannels n) 350 400)) 0 1 2 ∧
    ((maxColDiff Ieee.float32 floatTieChannels 350 400 0 0 : Nat) : ℤ)
      = 255 - max (max ((floatTieChannels 2 0 0 : ℤ) - floatTieChannels 0 0 0) 0)
                  (max ((floatTieChannels 1 0 0 : ℤ) - floatTieChannels 0 0 0) 0) :=
  ⟨ranked_floatTieChannels,
    ((maxColDiff_ranked_formula Ieee.float32 floatTieChannels 350 400
      (fun n r c _ _ => floatTieChannels_le n r c)
      0 0 (by decide) (by decide)).2 0 1 2 ranked_floatTieChannels).1⟩

/-- C9 (counterexample): on the 350 × 400 image `floatTieChannels` the global
means are `200 + 1/140000`, `200` and `255`, so the ranking by global mean is
`(C_min, C_mid, C_max) = (channel 1, channel 0, channel 2)` and the formula
gives 200 at pixel `(0, 0)`. The code compares the means stored as `float`,
where the first two are equal, takes channel 0 as `cmin` and returns 201. -/
theorem maxColDiff_float_tie :
    RankedAscending (fun n => mean (floatTieChannels n) 350 400) 1 0 2 ∧
    ((maxColDiff Ieee.float32 floatTieChannels 350 400 0 0 : Nat) : ℤ) = 201 ∧
    (255 - max (max ((floatTieChannels 2 0 0 : ℤ) - floatTieChannels 1 0 0) 0)
               (max ((floatTieChannels 0 0 0 : ℤ) - floatTieChannels 1 0 0) 0) : ℤ) = 200 ∧
    ((maxColDiff Ieee.float32 floatTieChannels 350 400 0 0 : Nat) : ℤ)
      ≠ 255 - max (max ((floatTieChannels 2 0 0 : ℤ) - floatTieChannels 1 0 0) 0)
                  (max ((floatTieChannels 0 0 0 : ℤ) - floatTieChannels 1 0 0) 0) := by
  obtain ⟨h0, h1, h2⟩ := mean_floatTieChannels
  have hrank : RankedAscending (fun n => mean (floatTieChannels n) 350 400) 1 0 2 := by
    refine ⟨by decide, by decide, by decide, Or.inl ?_, Or.inl ?_⟩
    · simp only [h0, h1]
      norm_num
    · simp only [h0, h2]
      norm_num
  have hcode : ((maxColDiff Ieee.float32 floatTieChannels 350 400 0 0 : Nat) : ℤ) = 201 := by
    rw [maxColDiff_of_ranked Ieee.float32 floatTieChannels 350 400 0 1 2
      ranked_floatTieChannels 0 0]
    simp [floatTieChannels]
  have hspec : (255 - max (max ((floatTieChannels 2 0 0 : ℤ) - floatTieChannels 1 0 0) 0)
      (max ((floatTieChannels 0 0 0 : ℤ) - floatTieChannels 1 0 0) 0) : ℤ) = 200 := by
    simp [floatTieChannels]
  refine ⟨hrank, hcode, hspec, ?_⟩
  rw [hcode, hspec]
  decide

/-! Invariance under a permutation of the channels. -/

theorem fin3_other (i j k m : Fin 3) (hij : i ≠ j) (hjk : j ≠ k) (hik : i ≠ k) (hm : m ≠ i) :
    m = j ∨ m = k := by
  revert i j k m
  decide

theorem fin3_pair (m j k a b : Fin 3) (hmj : m ≠ j) (hjk : j ≠ k) (hmk : m ≠ k)
    (ham : a ≠ m) (hbm : b ≠ m) (hab : a ≠ b) : (j = a ∧ k = b) ∨ (j = b ∧ k = a) := by
  revert m j k a b
  decide

theorem fin3_exists_others (m : Fin 3) : ∃ a b : Fin 3, a ≠ m ∧ b ≠ m ∧ a ≠ b := by
  revert m
  decide

theorem maxColDiff_of_unique_min (fl : ℚ → ℚ) (channels : Fin 3 → Plane) (rows cols : Nat)
    (m a b : Fin 3)
    (hmin : ∀ n, n ≠ m → fl (mean (channels m) rows cols) < fl (mean (channels n) rows cols))
    (ham : a ≠ m) (hbm : b ≠ m) (hab : a ≠ b) (r c : Nat) :
    maxColDiff fl channels rows cols r c
      = 255 - max (max (channels a r c - channels m r c) 0)
                  (max (channels b r c - channels m r c) 0) := by
  obtain ⟨i, j, k, hrank⟩ := exists_ranked (fun n => fl (mean (channels n) rows cols))
  have hform := maxColDiff_of_ranked fl channels rows cols i j k hrank r c
  obtain ⟨hij, hjk, hik, h1, h2⟩ := hrank
  have hle1 : fl (mean (channels i) rows cols) ≤ fl (mean (channels j) rows cols) := by
    rcases h1 with h | ⟨h, _⟩
    · exact le_of_lt h
    · exact le_of_eq h
  have hle2 : fl (mean (channels j) rows cols) ≤ fl (mean (channels k) rows cols) := by
    rcases h2 with h | ⟨h, _⟩
    · exact le_of_lt h
    · exact le_of_eq h
  have him : i = m := by
    by_contra hne
    have hlt := hmin i hne
    rcases fin3_other i j k m hij hjk hik (fun h => hne h.symm) with h | h
    · rw [h] at hlt
      exact absurd hle1 (not_le.mpr hlt)
    · rw [h] at hlt
      exact absurd (le_trans hle1 hle2) (not_le.mpr hlt)
  subst him
  rcases fin3_pair i j k a b hij hjk hik ham hbm hab with ⟨rfl, rfl⟩ | ⟨rfl, rfl⟩
  · rw [hform, max_comm]
  · exact hform

theorem mean_tiedTopChannels :
    mean (tiedTopChannels 0) 1 2 = 5 ∧ mean (tiedTopChannels 1) 1 2 = 20 ∧
      mean (tiedTopChannels 2) 1 2 = 20 := by
  refine ⟨?_, ?_, ?_⟩ <;>
    norm_num [mean, pixels, tiedTopChannels, List.range_succ, List.flatMap]

/-- C8 (amended): for channel planes of which one has a (stored) global mean
strictly smaller than the other two, `maxColDiff` of the channels permuted by
any permutation `p` of `{0, 1, 2}` equals `maxColDiff` of the channels at every
pixel; the two larger means may be equal. -/
theorem maxColDiff_perm_of_unique_min (fl : ℚ → ℚ) (channels : Fin 3 → Plane)
    (rows cols : Nat) (p : Equiv.Perm (Fin 3)) (m : Fin 3)
    (hmin : ∀ n, n ≠ m → fl (mean (channels m) rows cols) < fl (mean (channels n) rows cols))
    (r c : Nat) :
    maxColDiff fl (fun n => channels (p n)) rows cols r c
      = maxColDiff fl channels rows cols r c := by
  obtain ⟨a, b, ham, hbm, hab⟩ := fin3_exists_others m
  have hmin' : ∀ n, n ≠ p.symm m →
      fl (mean (channels (p (p.symm m))) rows cols) < fl (mean (channels (p n)) rows cols) := by
    intro n hn
    rw [Equiv.apply_symm_apply]
    apply hmin
    intro h
    apply hn
    rw [← h, Equiv.symm_apply_apply]
  rw [maxColDiff_of_unique_min fl (fun n => channels (p n)) rows cols (p.symm m) (p.symm a)
      (p.symm b) hmin' (fun h => ham (p.symm.injective h)) (fun h => hbm (p.symm.injective h))
      (fun h => hab (p.symm.injective h)) r c,
    maxColDiff_of_unique_min fl channels rows cols m a b hmin ham hbm hab r c]
  simp only [Equiv.apply_symm_apply]

/-- C8 (amended) at a concrete input: the 1 × 2 image `tiedTopChannels`, whose
means are 5, 20 and 20, with the two tied channels exchanged. -/
theorem maxColDiff_perm_of_unique_min_witness :
    (∀ n : Fin 3, n ≠ 0 →
      id (mean (tiedTopChannels 0) 1 2) < id (mean (tiedTopChannels n) 1 2)) ∧
    maxColDiff id (fun n => tiedTopChannels (Equiv.swap 1 2 n)) 1 2 0 0
      = maxColDiff id tiedTopChannels 1 2 0 0 := by
  obtain ⟨h0, h1, h2⟩ := mean_tiedTopChannels
  have hmin : ∀ n : Fin 3, n ≠ 0 →
      id (mean (tiedTopChannels 0) 1 2) < id (mean (tiedTopChannels n) 1 2) := by
    intro n hn
    fin_cases n
    · exact absurd rfl hn
    · simp only [id, h0]
      show (5 : ℚ) < mean (tiedTopChannels 1) 1 2
      rw [h1]
      norm_num
    · simp only [id, h0]
      show (5 : ℚ) < mean (tiedTopChannels 2) 1 2
      rw [h2]
      norm_num
  exact ⟨hmin, maxColDiff_perm_of_unique_min id tiedTopChannels 1 2 (Equiv.swap 1 2) 0 hmin 0 0⟩

/-- C8 (counterexample): channels 0 and 1 of the 1 × 2 image `tiedChannels` have
the same mean 5, the smallest. Exchanging them changes pixel `(0, 0)` of
`maxColDiff` from 235 to 245. -/
theorem maxColDiff_not_perm_invariant :
    maxColDiff id (fun n => tiedChannels (Equiv.swap 0 1 n)) 1 2 0 0 = 245 ∧
    maxColDiff id tiedChannels 1 2 0 0 = 235 ∧
    maxColDiff id (fun n => tiedChannels (Equiv.swap 0 1 n)) 1 2 0 0
      ≠ maxColDiff id tiedChannels 1 2 0 0 := by
  obtain ⟨h0, h1, h2⟩ := mean_tiedChannels
  have hswap : RankedAscending
      (fun n => id (mean (tiedChannels (Equiv.swap (0 : Fin 3) 1 n)) 1 2)) 0 1 2 := by
    refine ⟨by decide, by decide, by decide, Or.inr ⟨?_, by decide⟩, Or.inl ?_⟩
    · simp [h0, h1]
    · have e : (Equiv.swap (0 : Fin 3) 1) 2 = 2 := by decide
      simp only [id, Equiv.swap_apply_right, e, h0, h2]
      norm_num
  have a : maxColDiff id (fun n => tiedChannels (Equiv.swap 0 1 n)) 1 2 0 0 = 245 := by
    rw [maxColDiff_of_ranked id _ 1 2 0 1 2 hswap 0 0]
    have e : (Equiv.swap (0 : Fin 3) 1) 2 = 2 := by decide
    simp [e, tiedChannels]
  have b : maxColDiff id tiedChannels 1 2 0 0 = 235 := by
    rw [maxColDiff_of_ranked id _ 1 2 0 1 2 ranked_tiedChannels 0 0]
    simp [tiedChannels]
  refine ⟨a, b, ?_⟩
  rw [a, b]
  decide

/-! ## Properties of `lightEstimation` -/

theorem decode_column (k cols : Nat) :
    (if k / cols = 0 then k else k - k / cols * cols) = k % cols := by
  rcases Nat.eq_zero_or_pos cols with h0 | hpos
  · subst h0
    simp
  · split_ifs with h
    · have hlt : k < cols := by
        by_contra hge
        have : 0 < k / cols := Nat.div_pos (not_lt.mp hge) hpos
        omega
      exact (Nat.mod_eq_of_lt hlt).symm
    · have := Nat.div_add_mod k cols
      have hc : cols * (k / cols) = k / cols * cols := Nat.mul_comm _ _
      omega

theorem darkestLoop_ok {α : Type} (variance : Nat → Nat → α) (sorted : List Nat) (cols : Nat)
    (is : List Nat) (h : ∀ i ∈ is, i < sorted.length) :
    darkestLoop variance sorted cols is = .ok (is.map (recorded variance sorted cols)) := by
  induction is with
  | nil => rfl
  | cons i t ih =>
    have hi : i < sorted.length := h i (List.mem_cons_self i t)
    have ht := ih (fun x hx => h x (List.mem_cons_of_mem i hx))
    have hget : sorted[i]? = some (sorted.getD i 0) := by
      simp [List.getD, List.getElem?_eq_getElem hi]
    simp only [darkestLoop, hget, ht, List.map_cons, recorded, decode_column]

theorem minLocAux_spec {α : Type} [LinearOrder α] (g : Nat → α) (len : Nat) :
    ∀ (i best : Nat), best < i → (∀ j, j < i → g best ≤ g j) → (∀ j, j < best → g best < g j) →
      minLocAux ((List.range' i len).map g) (g best) best i < i + len ∧
      (∀ j, j < i + len →
        g (minLocAux ((List.range' i len).map g) (g best) best i) ≤ g j) ∧
      (∀ j, j < minLocAux ((List.range' i len).map g) (g best) best i →
        g (minLocAux ((List.range' i len).map g) (g best) best i) < g j) := by
  induction len with
  | zero =>
    intro i best hb hmin hfirst
    simpa [minLocAux] using ⟨hb, hmin, hfirst⟩
  | succ len ih =>
    intro i best hb hmin hfirst
    simp only [List.range'_succ, List.map_cons, minLocAux]
    split_ifs with hlt
    · have := ih (i + 1) i (Nat.lt_succ_self i)
        (fun j hj => by
          rcases Nat.lt_succ_iff_lt_or_eq.mp hj with h | h
          · exact le_trans (le_of_lt hlt) (hmin j h)
          · rw [h])
        (fun j hj => lt_of_lt_of_le hlt (hmin j hj))
      simpa [Nat.add_assoc, Nat.add_comm 1 len] using this
    · have := ih (i + 1) best (Nat.lt_succ_of_lt hb)
        (fun j hj => by
          rcases Nat.lt_succ_iff_lt_or_eq.mp hj with h | h
          · exact hmin j h
          · rw [h]; exact not_lt.mp hlt)
        hfirst
      simpa [Nat.add_assoc, Nat.add_comm 1 len] using this

theorem minLoc_spec {α : Type} [LinearOrder α] (g : Nat → α) (n : Nat) (hn : 1 ≤ n) :
    ∃ m, minLoc ((List.range n).map g) = some m ∧ m < n ∧
      (∀ j, j < n → g m ≤ g j) ∧ (∀ j, j < m → g m < g j) := by
  obtain ⟨len, rfl⟩ : ∃ len, n = len + 1 := ⟨n - 1, by omega⟩
  have h := minLocAux_spec g len 1 0 (by decide)
    (fun j hj => by
      have : j = 0 := by omega
      rw [this])
    (fun j hj => by omega)
  refine ⟨minLocAux ((List.range' 1 len).map g) (g 0) 0 1, ?_, ?_, ?_, h.2.2⟩
  · rw [List.range_eq_range', List.range'_succ]
    simp [minLoc]
  · have := h.1
    omega
  · intro j hj
    exact h.2.1 j (by omega)

theorem lightEstimation_ok {α : Type} [LinearOrder α] (variance : Nat → Nat → α)
    (sorted : List Nat) (total cols : Nat) (channels : Fin 3 → Plane)
    (hn : 1 ≤ percentage total) (hlen : percentage total ≤ sorted.length) :
    ∃ m, m < percentage total ∧
      (∀ j, j < percentage total →
        (recorded variance sorted cols m).1 ≤ (recorded variance sorted cols j).1) ∧
      (∀ j, j < m → (recorded variance sorted cols m).1 < (recorded variance sorted cols j).1) ∧
      lightEstimation variance sorted total cols channels
        = .ok [channels 0 (sorted.getD m 0 / cols) (sorted.getD m 0 % cols),
               channels 1 (sorted.getD m 0 / cols) (sorted.getD m 0 % cols),
               channels 2 (sorted.getD m 0 / cols) (sorted.getD m 0 % cols)] := by
  obtain ⟨m, hm, hlt, hmin, hfirst⟩ :=
    minLoc_spec (fun i => (recorded variance sorted cols i).1) (percentage total) hn
  refine ⟨m, hlt, hmin, hfirst, ?_⟩
  have hloop := darkestLoop_ok variance sorted cols (List.range (percentage total))
    (fun i hi => lt_of_lt_of_le (List.mem_range.mp hi) hlen)
  have hmap : ((List.range (percentage total)).map (recorded variance sorted cols)).map
      (fun s => s.1)
      = (List.range (percentage total)).map (fun i => (recorded variance sorted cols i).1) := by
    simp [List.map_map, Function.comp_def]
  have hsel : ((List.range (percentage total)).map (recorded variance sorted cols))[m]?
      = some (recorded variance sorted cols m) := by
    simp [List.getElem?_map, List.getElem?_range hlt]
  simp only [lightEstimation, hloop, hmap, hm, hsel]
  rfl

/-! The index order computed by `sortIdx` meets the contract that the properties
of `lightEstimation` ask of the row `sorted`: a permutation, ascending in the key. -/

theorem insertIdx_perm {ι : Type} (key : ι → ℚ) (i : ι) (l : List ι) :
    (insertIdx key i l).Perm (i :: l) := by
  induction l with
  | nil => exact List.Perm.refl _
  | cons j js ih =>
    simp only [insertIdx]
    split_ifs
    · exact List.Perm.refl _
    · exact (List.Perm.cons j ih).trans (List.Perm.swap i j js)

theorem insertIdx_pairwise {ι : Type} (key : ι → ℚ) (i : ι) (l : List ι)
    (h : l.Pairwise (fun a b => key a ≤ key b)) :
    (insertIdx key i l).Pairwise (fun a b => key a ≤ key b) := by
  induction l with
  | nil => simp [insertIdx]
  | cons j js ih =>
    simp only [insertIdx]
    have hj := List.pairwise_cons.mp h
    split_ifs with hlt
    · refine List.pairwise_cons.mpr ⟨?_, h⟩
      intro b hb
      rcases List.mem_cons.mp hb with rfl | hb'
      · exact le_of_lt hlt
      · exact le_trans (le_of_lt hlt) (hj.1 b hb')
    · refine List.pairwise_cons.mpr ⟨?_, ih hj.2⟩
      intro b hb
      rcases List.mem_cons.mp ((insertIdx_perm key i js).mem_iff.mp hb) with rfl | hb'
      · exact not_lt.mp hlt
      · exact hj.1 b hb'

theorem sortIdx_contract {ι : Type} (key : ι → ℚ) (idx : List ι) :
    (sortIdx key idx).Perm idx ∧ (sortIdx key idx).Pairwise (fun a b => key a ≤ key b) := by
  have gen : ∀ (idx acc : List ι), acc.Pairwise (fun a b => key a ≤ key b) →
      (idx.foldl (fun acc i => insertIdx key i acc) acc).Perm (acc ++ idx) ∧
      (idx.foldl (fun acc i => insertIdx key i acc) acc).Pairwise (fun a b => key a ≤ key b) := by
    intro idx
    induction idx with
    | nil =>
      intro acc hacc
      simpa using hacc
    | cons i t ih =>
      intro acc hacc
      obtain ⟨hp, hs⟩ := ih (insertIdx key i acc) (insertIdx_pairwise key i acc hacc)
      refine ⟨?_, hs⟩
      simp only [List.foldl_cons]
      refine hp.trans ?_
      refine ((insertIdx_perm key i acc).append_right t).trans ?_
      simpa using (@List.perm_middle _ i acc t).symm
  simpa [sortIdx] using gen idx [] List.Pairwise.nil

theorem getElem?_getD_of_lt (sorted : List Nat) (j : Nat) (h : j < sorted.length) :
    sorted[j]? = some (sorted.getD j 0) := by
  simp [List.getD, List.getElem?_eq_getElem h]

theorem percentage_pos_iff (total : Nat) : 1 ≤ percentage total ↔ 50 ≤ total := by
  unfold percentage
  omega

theorem percentage_le (total : Nat) : percentage total ≤ total := by
  unfold percentage
  omega

theorem getElem?_reverse_range (n i : Nat) (h : i < n) :
    (List.range n).reverse[i]? = some (n - 1 - i) := by
  rw [List.getElem?_reverse (by simpa using h), List.length_range,
    List.getElem?_range (by omega)]

theorem percentage_round (total : Nat) :
    ((total : Nat) : ℚ) * (1 / 100) - 1 / 2 < (percentage total : ℚ) ∧
      (percentage total : ℚ) ≤ ((total : Nat) : ℚ) * (1 / 100) + 1 / 2 := by
  have h1 : total + 50 < 100 * percentage total + 100 := by
    unfold percentage
    omega
  have h2 : 100 * percentage total ≤ total + 50 := by
    unfold percentage
    omega
  have h1q : ((total : Nat) : ℚ) + 50 < 100 * (percentage total : ℚ) + 100 := by
    exact_mod_cast h1
  have h2q : 100 * (percentage total : ℚ) ≤ ((total : Nat) : ℚ) + 50 := by
    exact_mod_cast h2
  constructor <;> linarith

/-- C1: for an `H × W` image whose sample count `n`, the integer nearest to
`H * W * 0.01` with halves rounded up, is at least 1, a variance map and
the index row `sorted` of the bright-channel map (a permutation of the
flattened indices, ascending in the map), `lightEstimation` returns the three
channel values at `(k / W, k % W)`, a position inside the image, where
`k = sorted[j]` is the first of the `n` darkest pixels, in darkest-first order,
to attain the minimum variance among those `n` pixels. -/
theorem lightEstimation_selects {α : Type} [LinearOrder α] (H W : Nat)
    (variance : Nat → Nat → α) (bc : Plane) (channels : Fin 3 → Plane) (sorted : List Nat)
    (hperm : sorted.Perm (List.range (H * W)))
    (hsorted : sorted.Pairwise (fun a b => bc (a / W) (a % W) ≤ bc (b / W) (b % W)))
    (hn : 1 ≤ percentage (H * W)) :
    (((H * W : Nat) : ℚ) * (1 / 100) - 1 / 2 < (percentage (H * W) : ℚ) ∧
      (percentage (H * W) : ℚ) ≤ ((H * W : Nat) : ℚ) * (1 / 100) + 1 / 2) ∧
    ∃ j k, j < percentage (H * W) ∧ sorted[j]? = some k ∧
      k / W < H ∧ k % W < W ∧
      (∀ j' k', j' < percentage (H * W) → sorted[j']? = some k' →
        variance (k / W) (k % W) ≤ variance (k' / W) (k' % W)) ∧
      (∀ j' k', j' < j → sorted[j']? = some k' →
        variance (k / W) (k % W) < variance (k' / W) (k' % W)) ∧
      (∀ q, q < H * W → q ∉ sorted.take (percentage (H * W)) →
        bc (k / W) (k % W) ≤ bc (q / W) (q % W)) ∧
      lightEstimation variance sorted (H * W) W channels
        = .ok [channels 0 (k / W) (k % W), channels 1 (k / W) (k % W),
               channels 2 (k / W) (k % W)] := by
  have hlen : sorted.length = H * W := by rw [hperm.length_eq, List.length_range]
  have hnlen : percentage (H * W) ≤ sorted.length := by
    rw [hlen]
    exact percentage_le _
  have h50 : 50 ≤ H * W := (percentage_pos_iff _).mp hn
  have hW : 0 < W := by
    rcases Nat.eq_zero_or_pos W with h0 | hpos
    · subst h0
      simp at h50
    · exact hpos
  obtain ⟨m, hm, hmin, hfirst, hres⟩ :=
    lightEstimation_ok variance sorted (H * W) W channels hn hnlen
  have hget : sorted[m]? = some (sorted.getD m 0) :=
    getElem?_getD_of_lt sorted m (lt_of_lt_of_le hm hnlen)
  have hk : sorted.getD m 0 < H * W :=
    List.mem_range.mp (hperm.mem_iff.mp (List.getElem?_mem hget))
  refine ⟨percentage_round (H * W), m, sorted.getD m 0, hm, hget, ?_, Nat.mod_lt _ hW, ?_, ?_,
    ?_, hres⟩
  · exact Nat.div_lt_of_lt_mul (by rw [Nat.mul_comm]; exact hk)
  · intro j' k' hj' hk'
    have e : sorted.getD j' 0 = k' := by
      have := getElem?_getD_of_lt sorted j' (lt_of_lt_of_le hj' hnlen)
      rw [hk'] at this
      exact (Option.some.inj this).symm
    have := hmin j' hj'
    simpa only [recorded, e] using this
  · intro j' k' hj' hk'
    have e : sorted.getD j' 0 = k' := by
      have := getElem?_getD_of_lt sorted j' (lt_of_lt_of_le (lt_trans hj' hm) hnlen)
      rw [hk'] at this
      exact (Option.some.inj this).symm
    have := hfirst j' hj'
    simpa only [recorded, e] using this
  · intro q hq hnot
    have hqmem : q ∈ sorted := hperm.mem_iff.mpr (List.mem_range.mpr hq)
    rw [← List.take_append_drop (percentage (H * W)) sorted] at hqmem hsorted
    have hqdrop : q ∈ sorted.drop (percentage (H * W)) := by
      rcases List.mem_append.mp hqmem with h | h
      · exact absurd h hnot
      · exact h
    have hktake : sorted.getD m 0 ∈ sorted.take (percentage (H * W)) := by
      refine @List.getElem?_mem _ _ m _ ?_
      rw [List.getElem?_take_of_lt hm]
      exact hget
    exact (List.pairwise_append.mp hsorted).2.2 _ hktake _ hqdrop

/-- C1 at a concrete input: a 10 × 25 image whose bright-channel map falls with
the flattened index, so that the three sampled pixels are 249, 248 and 247 in
darkest-first order. Their variances are 5, 2 and 2: the minimum is met first
at index 248, pixel `(9, 23)`, and the light is read there. -/
theorem lightEstimation_selects_witness :
    (1 ≤ percentage (10 * 25) ∧ percentage (10 * 25) = 3) ∧
    ((List.range (10 * 25)).reverse[0]? = some 249 ∧
      (List.range (10 * 25)).reverse[1]? = some 248 ∧
      (List.range (10 * 25)).reverse[2]? = some 247) ∧
    lightEstimation (fun r c => if r = 9 ∧ c = 24 then 5 else 2)
        (List.range (10 * 25)).reverse (10 * 25) 25 (fun n r c => 10 * n.val + r + c)
      = .ok [32, 42, 52] := by
  have s0 : (List.range (10 * 25)).reverse[0]? = some 249 :=
    getElem?_reverse_range (10 * 25) 0 (by decide)
  have s1 : (List.range (10 * 25)).reverse[1]? = some 248 :=
    getElem?_reverse_range (10 * 25) 1 (by decide)
  have s2 : (List.range (10 * 25)).reverse[2]? = some 247 :=
    getElem?_reverse_range (10 * 25) 2 (by decide)
  have hn : percentage (10 * 25) = 3 := by decide
  obtain ⟨_, j, k, hj, hk, _, _, hmin, hfirst, _, h⟩ :=
    lightEstimation_selects 10 25 (fun r c => if r = 9 ∧ c = 24 then 5 else 2)
      (fun r c => 249 - (25 * r + c)) (fun n r c => 10 * n.val + r + c)
      (List.range (10 * 25)).reverse (List.reverse_perm _)
      (List.pairwise_reverse.mpr ((List.pairwise_lt_range (10 * 25)).imp (fun {a b} hab => by
        show 249 - (25 * (b / 25) + b % 25) ≤ 249 - (25 * (a / 25) + a % 25)
        omega)))
      (by decide)
  refine ⟨⟨by decide, hn⟩, ⟨s0, s1, s2⟩, ?_⟩
  rw [hn] at hj hmin
  have hk248 : k = 248 := by
    interval_cases j
    · rw [s0] at hk
      have hk' : k = 249 := (Option.some.inj hk).symm
      subst hk'
      exact absurd (hmin 1 248 (by decide) s1) (by decide)
    · rw [s1] at hk
      exact (Option.some.inj hk).symm
    · rw [s2] at hk
      have hk' : k = 247 := (Option.some.inj hk).symm
      subst hk'
      exact absurd (hfirst 1 248 (by decide) s1) (by decide)
  subst hk248
  exact h

/-- C2 (amended): for every image of at least 50 pixels the sample count
`round(total * 0.01)` is at least 1 (so it equals `max(1, count)`), the selected
set has that many pixels, and `lightEstimation` returns a three-element light
without an out-of-range access. The code applies no minimum to the count. -/
theorem lightEstimation_three {α : Type} [LinearOrder α] (H W : Nat)
    (variance : Nat → Nat → α) (channels : Fin 3 → Plane) (sorted : List Nat)
    (hperm : sorted.Perm (List.range (H * W))) (h50 : 50 ≤ H * W) :
    1 ≤ percentage (H * W) ∧ percentage (H * W) = max 1 (percentage (H * W)) ∧
    (sorted.take (percentage (H * W))).length = percentage (H * W) ∧
    ∃ A, lightEstimation variance sorted (H * W) W channels = .ok A ∧ A.length = 3 := by
  have hn : 1 ≤ percentage (H * W) := (percentage_pos_iff _).mpr h50
  have hlen : sorted.length = H * W := by rw [hperm.length_eq, List.length_range]
  have hnlen : percentage (H * W) ≤ sorted.length := by
    rw [hlen]
    exact percentage_le _
  obtain ⟨m, _, _, _, hres⟩ := lightEstimation_ok variance sorted (H * W) W channels hn hnlen
  refine ⟨hn, (max_eq_right hn).symm, ?_, _, hres, rfl⟩
  rw [List.length_take]
  exact min_eq_left hnlen

/-- C2 (amended) at a concrete input: a 5 × 10 image. -/
theorem lightEstimation_three_witness :
    50 ≤ 5 * 10 ∧
    ∃ A, lightEstimation (fun r c => r + c) (List.range 50) (5 * 10) 10
        (fun n r c => 100 * n.val + 10 * r + c) = .ok A ∧ A.length = 3 :=
  ⟨by decide,
    (lightEstimation_three 5 10 (fun r c => r + c) (fun n r c => 100 * n.val + 10 * r + c)
      (List.range 50) (List.Perm.refl _) (by decide)).2.2.2⟩

/-- C2 (counterexample): for a 1 × 1 image the sample count is
`round(0.01) = 0`, not `max(1, 0) = 1`; no pixel is selected and reading
`X[minLoc.x]` from the empty vector is out of range. -/
theorem lightEstimation_single_pixel :
    percentage (1 * 1) = 0 ∧ percentage (1 * 1) ≠ max 1 (percentage (1 * 1)) ∧
    lightEstimation (fun _ _ => (0 : ℚ)) [0] (1 * 1) 1 (fun _ _ _ => 7)
      = .error .outOfRange := by
  refine ⟨by decide, by decide, ?_⟩
  have h : percentage (1 * 1) = 0 := by decide
  simp [lightEstimation, h, darkestLoop, minLoc]

end Dehazing

namespace EvaluationMetrics

end EvaluationMetrics
